import Mathlib

/-!
Verification of the C-H formation analysis script (CH_formation.py).

The script is embedded shallowly:
  - files are modelled as lists of lines (strings without trailing newline;
    end of file is the end of the list);
  - Python floats are modelled as exact rationals, and the per-frame
    distances (which the source obtains with math.sqrt) as real numbers;
  - code that raises an exception is modelled with Except.
-/

namespace CHFormation

/-! ## Python string primitives used by the script -/

/-- Whitespace-splitting accumulator: models Python str.split() with no
argument (splits on runs of whitespace, drops empty fields). -/
def wordsAux : List Char → List Char → List String
  | [], acc => if acc.isEmpty then [] else [String.mk acc.reverse]
  | c :: rest, acc =>
      if c.isWhitespace then
        if acc.isEmpty then wordsAux rest [] else String.mk acc.reverse :: wordsAux rest []
      else wordsAux rest (c :: acc)

/-- Python str.split() with no argument. -/
def pySplit (s : String) : List String := wordsAux s.toList []

/-- Python str.strip(): remove leading and trailing whitespace. -/
def pyStrip (s : String) : String :=
  String.mk (((s.toList.dropWhile Char.isWhitespace).reverse.dropWhile Char.isWhitespace).reverse)

/-- Python str.isdigit(): nonempty and all characters are digits. -/
def pyIsDigit (s : String) : Bool := !s.toList.isEmpty && s.toList.all Char.isDigit

/-- Python str.upper() (ASCII letters, which is all the script compares). -/
def upperStr (s : String) : String := String.mk (s.toList.map Char.toUpper)

/-- Value of a list of decimal digit characters, as int() computes it. -/
def natOfDigits (l : List Char) : ℕ :=
  l.foldl (fun acc c => acc * 10 + (c.toNat - ('0').toNat)) 0

/-- Whether pat occurs at the head of the text. -/
def leadsWith : List Char → List Char → Bool
  | [], _ => true
  | _ :: _, [] => false
  | a :: as, b :: bs => a == b && leadsWith as bs

/-- Whether pat occurs anywhere in the text (Python "pat in s"). -/
def containsSub (pat : List Char) : List Char → Bool
  | [] => pat.isEmpty
  | c :: rest => leadsWith pat (c :: rest) || containsSub pat rest

/-- Whether a monitor line contains the INFOLINE marker token. -/
def containsMarker (line : String) : Bool := containsSub ("INFOLINE".toList) line.toList

/-! ## Python float() on a token, as an exact rational

A decimal of the form [sign] digits [. digits] [e/E [sign] digits] is read
exactly; the value is sgn * digits(int part ++ frac part) * 10 ^ (exp - #frac).
Python would round this to the nearest binary double; the model keeps the
exact value. Tokens that float() rejects give none. -/

/-- Build the rational sgn * digits * 10 ^ e. -/
def decToRat (sgn : ℤ) (digits : ℕ) (e : ℤ) : ℚ :=
  if 0 ≤ e then mkRat (sgn * digits * 10 ^ e.toNat) 1
  else mkRat (sgn * digits) (10 ^ (-e).toNat)

/-- Read an exponent field: digits after an optional sign. -/
def expDigits (sgn : ℤ) (cs : List Char) : Option ℤ × List Char :=
  if (cs.takeWhile Char.isDigit).isEmpty then (none, cs.dropWhile Char.isDigit)
  else (some (sgn * (natOfDigits (cs.takeWhile Char.isDigit) : ℤ)), cs.dropWhile Char.isDigit)

/-- Read the optional e/E exponent part; absent means exponent 0. -/
def parseExp : List Char → Option ℤ × List Char
  | 'e' :: rest =>
      match rest with
      | '+' :: r2 => expDigits 1 r2
      | '-' :: r2 => expDigits (-1) r2
      | _ => expDigits 1 rest
  | 'E' :: rest =>
      match rest with
      | '+' :: r2 => expDigits 1 r2
      | '-' :: r2 => expDigits (-1) r2
      | _ => expDigits 1 rest
  | cs => (some 0, cs)

/-- Python float(tok) as an exact rational, none when float() raises. -/
def parseFloat (s : String) : Option ℚ :=
  let cs0 := s.toList
  let sgn : ℤ := match cs0 with | '-' :: _ => -1 | _ => 1
  let cs1 := match cs0 with | '-' :: r => r | '+' :: r => r | _ => cs0
  let ip := cs1.takeWhile Char.isDigit
  let cs2 := cs1.dropWhile Char.isDigit
  let fp := match cs2 with | '.' :: r => r.takeWhile Char.isDigit | _ => []
  let cs3 := match cs2 with | '.' :: r => r.dropWhile Char.isDigit | _ => cs2
  if ip.isEmpty && fp.isEmpty then none
  else match parseExp cs3 with
    | (some ex, []) => some (decToRat sgn (natOfDigits (ip ++ fp)) (ex - fp.length))
    | _ => none

/-! ## Signal Reader: load_ne_sequence -/

/-- One monitor line: lines without the INFOLINE marker are skipped; on a
marker line all whitespace tokens that parse as floats are collected and the
first two (in order) are the time and the electron count; a line with fewer
than two parsed floats contributes nothing. -/
def line_sample (line : String) : Option (ℚ × ℚ) :=
  if containsMarker line then
    match (pySplit line).filterMap parseFloat with
    | t :: ne :: _ => some (t, ne)
    | _ => none
  else none

/-- load_ne_sequence over the lines of monitor.out: the (times, nes) pair of
equal-length lists, in file order. -/
def load_ne_sequence (lines : List String) : List ℚ × List ℚ :=
  ((lines.filterMap line_sample).map Prod.fst, (lines.filterMap line_sample).map Prod.snd)

/-- load_ne_sequence called on a path: open() raises FileNotFoundError when
the path does not exist (none); otherwise the body runs on the file lines. -/
def load_ne_sequence_from_path : Option (List String) → Except String (List ℚ × List ℚ)
  | none => .error ("FileNotFoundError")
  | some lines => .ok (load_ne_sequence lines)

/-! ## Frame Reader: frames_from_xyz -/

/-- Read count atom lines. Each atom line keeps only its first four tokens:
the element label and the coordinate tokens, each of which must parse as a
float or the Python code raises ValueError. Reading past the end of file
yields an empty readline result whose unpacking raises ValueError. -/
def floatsOf : List String → Option (List ℚ)
  | [] => some []
  | t :: ts =>
      match parseFloat t, floatsOf ts with
      | some v, some vs => some (v :: vs)
      | _, _ => none

/-- Read n atom lines from the remaining lines of the file. -/
def readAtoms : ℕ → List String → Except String (List (String × List ℚ))
  | 0, _ => .ok []
  | _ + 1, [] => .error ("ValueError")
  | n + 1, line :: rest =>
      match (pySplit line).take 4 with
      | [] => .error ("ValueError")
      | el :: xyz =>
          match floatsOf xyz with
          | none => .error ("ValueError")
          | some coords =>
              match readAtoms n rest with
              | .error e => .error e
              | .ok atoms => .ok ((el, coords) :: atoms)

/-- frames_from_xyz over the lines of an xyz file: scan for a line that is a
bare atom count, discard the following comment line, then read that many atom
lines as one frame; repeat. Lines that are not an atom count are skipped.
A successful readAtoms consumes exactly 1 + count lines after the count line.
list(frames_from_xyz(...)) in the caller turns a raised exception into an
error for the whole file, which Except models. -/
def frames_from_xyz : List String → Except String (List (List (String × List ℚ)))
  | [] => .ok []
  | line :: rest =>
      if pyIsDigit (pyStrip line) then
        match readAtoms (natOfDigits (pyStrip line).toList) (rest.drop 1) with
        | .error e => .error e
        | .ok frame =>
            match frames_from_xyz (rest.drop (1 + natOfDigits (pyStrip line).toList)) with
            | .error e => .error e
            | .ok frames => .ok (frame :: frames)
      else frames_from_xyz rest
termination_by l => l.length
decreasing_by
  all_goals simp [List.length_drop]
  all_goals omega

/-! ## Interval Segmenter: find_intervals -/

/-- The single left-to-right scan of find_intervals: i is the index of the
head of the remaining list within the full sequence, start the index of the
currently open run (None when no run is open). A value at most cutoff opens
or extends a run; a larger value closes an open run, which is emitted when
its length end - start + 1 reaches min_len; a run still open at the end of
the sequence is closed at the last index under the same length rule. -/
def find_intervals_scan {α : Type} [LinearOrder α] (cutoff : α) (min_len : ℕ) :
    List α → ℕ → Option ℕ → List (ℕ × ℕ)
  | [], _, none => []
  | [], i, some s => if min_len ≤ i - 1 - s + 1 then [(s, i - 1)] else []
  | r :: rest, i, none =>
      if r ≤ cutoff then find_intervals_scan cutoff min_len rest (i + 1) (some i)
      else find_intervals_scan cutoff min_len rest (i + 1) none
  | r :: rest, i, some s =>
      if r ≤ cutoff then find_intervals_scan cutoff min_len rest (i + 1) (some s)
      else
        (if min_len ≤ i - 1 - s + 1 then [(s, i - 1)] else []) ++
          find_intervals_scan cutoff min_len rest (i + 1) none

/-- find_intervals(seq, cutoff, min_len_frames). -/
def find_intervals {α : Type} [LinearOrder α] (seq : List α) (cutoff : α) (min_len : ℕ) :
    List (ℕ × ℕ) :=
  find_intervals_scan cutoff min_len seq 0 none

/-! ## Pair Analyzer pieces of ch_intervals_for_traj -/

/-- times_geom_fs: the frame times i * traj_dt_fs for i below the frame
count. -/
def times_geom {α : Type} [LinearOrderedField α] (n : ℕ) (dt : α) : List α :=
  (List.range n).map (fun i => (i : α) * dt)

/-- The enriched interval list of one distance series: each raw interval
(start, end) from find_intervals, annotated with the start time, end time
and duration taken from the times_geom table. The series has one entry per
frame, so its length is the frame count. -/
def ch_pair_series {α : Type} [LinearOrderedField α] (seq : List α) (cutoff : α)
    (min_len : ℕ) (dt : α) : List (ℕ × ℕ × α × α × α) :=
  (find_intervals seq cutoff min_len).map (fun p =>
    (p.1, p.2, (times_geom seq.length dt).getD p.1 0, (times_geom seq.length dt).getD p.2 0,
      (times_geom seq.length dt).getD p.2 0 - (times_geom seq.length dt).getD p.1 0))

/-! ## Ionization Locator -/

/-- The loop over zip(times_ne_fs, nes_all): the time of the first sample
whose electron count is strictly below the threshold, none when no sample
qualifies. -/
def first_ion_time (times nes : List ℚ) (thr : ℚ) : Option ℚ :=
  ((times.zip nes).find? (fun p => decide (p.2 < thr))).map Prod.fst

/-! ## Trajectory Orchestrator: ch_intervals_for_traj on the frame list -/

/-- One parsed frame: element label and position, for the analysis phase.
The distance code indexes positions as 3-tuples, so positions are modelled
as real 3-tuples (math.sqrt makes the distances irrational in general). -/
abbrev Frame3 := List (String × ℝ × ℝ × ℝ)

/-- dist2: squared euclidean distance of two 3d points. -/
def dist2 (a b : ℝ × ℝ × ℝ) : ℝ :=
  (a.1 - b.1) ^ 2 + (a.2.1 - b.2.1) ^ 2 + (a.2.2 - b.2.2) ^ 2

/-- The coordinate list of a frame. -/
def coordsOf (frame : Frame3) : List (ℝ × ℝ × ℝ) := frame.map Prod.snd

/-- The element labels of the first frame. -/
def elemsOf (frames : List Frame3) : List String := (frames.headD []).map Prod.fst

/-- The carbon indices: positions i of the first frame with label.upper() = C. -/
def cIdx (frames : List Frame3) : List ℕ :=
  (elemsOf frames).enum.filterMap (fun p => if upperStr p.2 = "C" then some p.1 else none)

/-- The hydrogen indices: positions i of the first frame with label.upper() = H. -/
def hIdx (frames : List Frame3) : List ℕ :=
  (elemsOf frames).enum.filterMap (fun p => if upperStr p.2 = "H" then some p.1 else none)

/-- The distance series of the pair (ci, hi): sqrt of dist2 of the two
positions, one entry per frame. -/
noncomputable def distSeries (frames : List Frame3) (ci hi : ℕ) : List ℝ :=
  frames.map (fun frame =>
    Real.sqrt (dist2 ((coordsOf frame).getD ci (0, 0, 0)) ((coordsOf frame).getD hi (0, 0, 0))))

/-- The nested pair loop: for each carbon index and hydrogen index, segment
the distance series; pairs whose raw interval list is empty are omitted,
the others map to their enriched interval list. Insertion order of the dict
is the loop order. -/
noncomputable def pairLoop (frames : List Frame3) (r_cut : ℝ) (min_len : ℕ) (dt : ℝ) :
    List ((ℕ × ℕ) × List (ℕ × ℕ × ℝ × ℝ × ℝ)) :=
  ((cIdx frames).map (fun ci =>
    (hIdx frames).filterMap (fun hi =>
      if find_intervals (distSeries frames ci hi) r_cut min_len = [] then none
      else some ((ci, hi), ch_pair_series (distSeries frames ci hi) r_cut min_len dt)))).flatten

/-- The result dictionary of ch_intervals_for_traj. -/
structure Report where
  pair_intervals : List ((ℕ × ℕ) × List (ℕ × ℕ × ℝ × ℝ × ℝ))
  t_ion : Option ℚ
  n_frames : ℕ

/-- ch_intervals_for_traj, on the already-listed frames. The monitor
argument mirrors the two caller states: none models monitor_path=None, some
none a supplied path whose is_file() is false, and some (some lines) an
existing file. An empty frame list returns immediately with no pair map and
no ionization time, before the monitor file is consulted. -/
noncomputable def ch_intervals_core (frames : List Frame3)
    (monitor : Option (Option (List String))) (r_cut : ℝ) (min_len : ℕ) (thr : ℚ)
    (dt : ℝ) : Report :=
  if frames.length = 0 then ⟨[], none, 0⟩
  else
    let t_ion : Option ℚ :=
      match monitor with
      | some (some mlines) =>
          first_ion_time (load_ne_sequence mlines).1 (load_ne_sequence mlines).2 thr
      | _ => none
    if cIdx frames = [] ∨ hIdx frames = [] then ⟨[], t_ion, frames.length⟩
    else ⟨pairLoop frames r_cut min_len dt, t_ion, frames.length⟩

/-! ## Equations of the segmenter scan -/

lemma scan_nil_none {α : Type} [LinearOrder α] (cutoff : α) (m i : ℕ) :
    find_intervals_scan cutoff m [] i none = [] := rfl

lemma scan_nil_some {α : Type} [LinearOrder α] (cutoff : α) (m i s : ℕ) :
    find_intervals_scan cutoff m [] i (some s) =
      if m ≤ i - 1 - s + 1 then [(s, i - 1)] else [] := rfl

lemma scan_cons_none {α : Type} [LinearOrder α] (cutoff : α) (m : ℕ) (r : α) (rest : List α)
    (i : ℕ) :
    find_intervals_scan cutoff m (r :: rest) i none =
      if r ≤ cutoff then find_intervals_scan cutoff m rest (i + 1) (some i)
      else find_intervals_scan cutoff m rest (i + 1) none := rfl

lemma scan_cons_some {α : Type} [LinearOrder α] (cutoff : α) (m : ℕ) (r : α) (rest : List α)
    (i s : ℕ) :
    find_intervals_scan cutoff m (r :: rest) i (some s) =
      if r ≤ cutoff then find_intervals_scan cutoff m rest (i + 1) (some s)
      else
        (if m ≤ i - 1 - s + 1 then [(s, i - 1)] else []) ++
          find_intervals_scan cutoff m rest (i + 1) none := rfl

/-- Soundness invariant of the scan: every emitted interval is ordered, long
enough, in range, and covers only values at most the cutoff. -/
lemma scan_sound {α : Type} [LinearOrder α] (cutoff : α) (m : ℕ) (seq : List α) :
    ∀ (l : List α) (i : ℕ) (start : Option ℕ),
      l = seq.drop i → i ≤ seq.length →
      (∀ s0, start = some s0 → s0 < i ∧
        ∀ j (hj : j < seq.length), s0 ≤ j → j < i → seq.get ⟨j, hj⟩ ≤ cutoff) →
      ∀ s e, (s, e) ∈ find_intervals_scan cutoff m l i start →
        s ≤ e ∧ m ≤ e - s + 1 ∧ e < seq.length ∧
          ∀ j (hj : j < seq.length), s ≤ j → j ≤ e → seq.get ⟨j, hj⟩ ≤ cutoff := by
  intro l
  induction l with
  | nil =>
    intro i start hdrop hi hs s e hmem
    match start with
    | none => simp [scan_nil_none] at hmem
    | some s0 =>
      obtain ⟨hs0, hvals⟩ := hs s0 rfl
      have hle : seq.length ≤ i := by
        by_contra hc
        push_neg at hc
        have hx := List.drop_eq_getElem_cons hc
        rw [← hdrop] at hx
        exact List.cons_ne_nil _ _ hx.symm
      rw [scan_nil_some] at hmem
      by_cases hcond : m ≤ i - 1 - s0 + 1
      · rw [if_pos hcond] at hmem
        simp only [List.mem_singleton, Prod.mk.injEq] at hmem
        obtain ⟨h1, h2⟩ := hmem
        subst h1; subst h2
        refine ⟨by omega, hcond, by omega, ?_⟩
        intro j hj hj1 hj2
        exact hvals j hj hj1 (by omega)
      · rw [if_neg hcond] at hmem
        simp at hmem
  | cons r rest ih =>
    intro i start hdrop hi hs s e hmem
    have hlt : i < seq.length := by
      by_contra hc
      push_neg at hc
      rw [List.drop_eq_nil_of_le hc] at hdrop
      exact List.cons_ne_nil _ _ hdrop
    have hcons := List.drop_eq_getElem_cons hlt
    rw [hcons] at hdrop
    injection hdrop with hr hrest
    match start with
    | none =>
      rw [scan_cons_none] at hmem
      by_cases hrc : r ≤ cutoff
      · rw [if_pos hrc] at hmem
        refine ih (i + 1) (some i) hrest (by omega) ?_ s e hmem
        intro s1 h1
        injection h1 with h1
        subst h1
        refine ⟨by omega, ?_⟩
        intro j hj hj1 hj2
        have hji : j = i := by omega
        subst hji
        rw [List.get_eq_getElem]
        exact hr ▸ hrc
      · rw [if_neg hrc] at hmem
        exact ih (i + 1) none hrest (by omega) (fun s1 h1 => nomatch h1) s e hmem
    | some s0 =>
      obtain ⟨hs0, hvals⟩ := hs s0 rfl
      rw [scan_cons_some] at hmem
      by_cases hrc : r ≤ cutoff
      · rw [if_pos hrc] at hmem
        refine ih (i + 1) (some s0) hrest (by omega) ?_ s e hmem
        intro s1 h1
        injection h1 with h1
        subst h1
        refine ⟨by omega, ?_⟩
        intro j hj hj1 hj2
        by_cases hj3 : j < i
        · exact hvals j hj hj1 hj3
        · have hji : j = i := by omega
          subst hji
          rw [List.get_eq_getElem]
          exact hr ▸ hrc
      · rw [if_neg hrc] at hmem
        rw [List.mem_append] at hmem
        rcases hmem with hmem | hmem
        · by_cases hcond : m ≤ i - 1 - s0 + 1
          · rw [if_pos hcond] at hmem
            simp only [List.mem_singleton, Prod.mk.injEq] at hmem
            obtain ⟨h1, h2⟩ := hmem
            subst h1; subst h2
            refine ⟨by omega, hcond, by omega, ?_⟩
            intro j hj hj1 hj2
            exact hvals j hj hj1 (by omega)
          · rw [if_neg hcond] at hmem
            simp at hmem
        · exact ih (i + 1) none hrest (by omega) (fun s1 h1 => nomatch h1) s e hmem

/-- Every interval the scan emits starts at or after the open-run start
(respectively the current index when no run is open). -/
lemma scan_lb {α : Type} [LinearOrder α] (cutoff : α) (m : ℕ) :
    ∀ (l : List α) (i : ℕ) (start : Option ℕ),
      (∀ s0, start = some s0 → s0 ≤ i) →
      ∀ p ∈ find_intervals_scan cutoff m l i start, start.getD i ≤ p.1 := by
  intro l
  induction l with
  | nil =>
    intro i start _ p hp
    match start with
    | none => simp [scan_nil_none] at hp
    | some s0 =>
      rw [scan_nil_some] at hp
      by_cases hcond : m ≤ i - 1 - s0 + 1
      · rw [if_pos hcond] at hp
        simp only [List.mem_singleton] at hp
        subst hp
        simp
      · rw [if_neg hcond] at hp
        simp at hp
  | cons r rest ih =>
    intro i start hs p hp
    match start with
    | none =>
      rw [scan_cons_none] at hp
      by_cases hrc : r ≤ cutoff
      · rw [if_pos hrc] at hp
        have hx := ih (i + 1) (some i) (fun s1 h1 => by injection h1 with h1; omega) p hp
        simp only [Option.getD_some] at hx
        simpa using hx
      · rw [if_neg hrc] at hp
        have hx := ih (i + 1) none (fun s1 h1 => nomatch h1) p hp
        simp only [Option.getD_none] at hx ⊢
        omega
    | some s0 =>
      have hsi := hs s0 rfl
      rw [scan_cons_some] at hp
      by_cases hrc : r ≤ cutoff
      · rw [if_pos hrc] at hp
        have hx := ih (i + 1) (some s0) (fun s1 h1 => by injection h1 with h1; omega) p hp
        simpa using hx
      · rw [if_neg hrc] at hp
        rw [List.mem_append] at hp
        rcases hp with hp | hp
        · by_cases hcond : m ≤ i - 1 - s0 + 1
          · rw [if_pos hcond] at hp
            simp only [List.mem_singleton] at hp
            subst hp
            simp
          · rw [if_neg hcond] at hp
            simp at hp
        · have hx := ih (i + 1) none (fun s1 h1 => nomatch h1) p hp
          simp only [Option.getD_none] at hx
          simp only [Option.getD_some]
          omega

/-- Between two consecutively emitted intervals there is an index holding a
value strictly above the cutoff. -/
lemma scan_chain {α : Type} [LinearOrder α] (cutoff : α) (m : ℕ) (seq : List α) :
    ∀ (l : List α) (i : ℕ) (start : Option ℕ),
      l = seq.drop i → i ≤ seq.length →
      (∀ s0, start = some s0 → s0 < i) →
      List.Chain'
        (fun p q => ∃ j, ∃ hj : j < seq.length, p.2 < j ∧ j < q.1 ∧ cutoff < seq.get ⟨j, hj⟩)
        (find_intervals_scan cutoff m l i start) := by
  intro l
  induction l with
  | nil =>
    intro i start _ _ _
    match start with
    | none => simp [scan_nil_none]
    | some s0 =>
      rw [scan_nil_some]
      by_cases hcond : m ≤ i - 1 - s0 + 1
      · rw [if_pos hcond]
        exact List.chain'_singleton _
      · rw [if_neg hcond]
        exact List.chain'_nil
  | cons r rest ih =>
    intro i start hdrop hi hs
    have hlt : i < seq.length := by
      by_contra hc
      push_neg at hc
      rw [List.drop_eq_nil_of_le hc] at hdrop
      exact List.cons_ne_nil _ _ hdrop
    have hcons := List.drop_eq_getElem_cons hlt
    rw [hcons] at hdrop
    injection hdrop with hr hrest
    match start with
    | none =>
      rw [scan_cons_none]
      by_cases hrc : r ≤ cutoff
      · rw [if_pos hrc]
        exact ih (i + 1) (some i) hrest (by omega) (fun s1 h1 => by injection h1 with h1; omega)
      · rw [if_neg hrc]
        exact ih (i + 1) none hrest (by omega) (fun s1 h1 => nomatch h1)
    | some s0 =>
      have hs0 := hs s0 rfl
      rw [scan_cons_some]
      by_cases hrc : r ≤ cutoff
      · rw [if_pos hrc]
        exact ih (i + 1) (some s0) hrest (by omega) (fun s1 h1 => by injection h1 with h1; omega)
      · rw [if_neg hrc]
        have hrec := ih (i + 1) none hrest (by omega) (fun s1 h1 => nomatch h1)
        by_cases hcond : m ≤ i - 1 - s0 + 1
        · rw [if_pos hcond, List.singleton_append, List.chain'_cons']
          refine ⟨?_, hrec⟩
          intro q hq
          have hqmem := List.mem_of_mem_head? hq
          have hlb := scan_lb cutoff m rest (i + 1) none (fun s1 h1 => nomatch h1) q hqmem
          simp only [Option.getD_none] at hlb
          refine ⟨i, hlt, by omega, by omega, ?_⟩
          rw [List.get_eq_getElem]
          exact hr ▸ lt_of_not_le hrc
        · rw [if_neg hcond, List.nil_append]
          exact hrec

/-- Soundness of find_intervals, at the top-level call. -/
lemma find_intervals_sound {α : Type} [LinearOrder α] (seq : List α) (cutoff : α) (m : ℕ)
    (s e : ℕ) (hmem : (s, e) ∈ find_intervals seq cutoff m) :
    s ≤ e ∧ m ≤ e - s + 1 ∧ e < seq.length ∧
      ∀ j (hj : j < seq.length), s ≤ j → j ≤ e → seq.get ⟨j, hj⟩ ≤ cutoff :=
  scan_sound cutoff m seq seq 0 none (by simp) (by simp) (fun s1 h1 => nomatch h1) s e hmem

/-- On a wholly-qualifying run the scan emits exactly the run. -/
lemma scan_all_le {α : Type} [LinearOrder α] (cutoff : α) (m : ℕ) :
    ∀ (l : List α) (i s0 : ℕ), s0 < i → (∀ x ∈ l, x ≤ cutoff) →
      find_intervals_scan cutoff m l i (some s0) =
        if m ≤ i + l.length - 1 - s0 + 1 then [(s0, i + l.length - 1)] else [] := by
  intro l
  induction l with
  | nil =>
    intro i s0 _ _
    rw [scan_nil_some]
    simp
  | cons r rest ih =>
    intro i s0 hsi hall
    rw [scan_cons_some, if_pos (hall r (by simp))]
    rw [ih (i + 1) s0 (by omega) (fun x hx => hall x (by simp [hx]))]
    have h1 : i + 1 + rest.length = i + (r :: rest).length := by
      simp [List.length_cons]
      omega
    rw [h1]

/-- A nonempty sequence lying entirely at or below the cutoff segments into
the single full-range interval, provided it is long enough. -/
lemma find_intervals_all_le {α : Type} [LinearOrder α] (seq : List α) (cutoff : α) (m : ℕ)
    (hne : seq ≠ []) (hall : ∀ x ∈ seq, x ≤ cutoff) (hm : m ≤ seq.length) :
    find_intervals seq cutoff m = [(0, seq.length - 1)] := by
  match seq, hne with
  | x :: rest, _ =>
    rw [find_intervals, scan_cons_none, if_pos (hall x (by simp))]
    rw [scan_all_le cutoff m rest 1 0 (by omega) (fun y hy => hall y (by simp [hy]))]
    rw [if_pos (by simp only [List.length_cons] at hm; omega)]
    have h2 : 1 + rest.length - 1 = (x :: rest).length - 1 := by
      simp [List.length_cons]
    rw [h2]

/-- Claim C1: for every numeric sequence, cutoff, and minimum run length,
every interval (start, end) emitted by find_intervals satisfies end >= start,
has length end - start + 1 >= the minimum run length, ends inside the
sequence, and every value at an index in [start, end] is <= the cutoff. -/
theorem C1_segmenter_sound {α : Type} [LinearOrder α] (seq : List α) (cutoff : α)
    (min_len : ℕ) (s e : ℕ) (hmem : (s, e) ∈ find_intervals seq cutoff min_len) :
    s ≤ e ∧ min_len ≤ e - s + 1 ∧ e < seq.length ∧
      ∀ j (hj : j < seq.length), s ≤ j → j ≤ e → seq.get ⟨j, hj⟩ ≤ cutoff :=
  find_intervals_sound seq cutoff min_len s e hmem

/-- Witness for C1 at the sequence [1, 3], cutoff 2, minimum length 1. -/
theorem C1_segmenter_sound_witness :
    ((0, 0) ∈ find_intervals ([1, 3] : List ℤ) 2 1) ∧
      (0 ≤ 0 ∧ 1 ≤ 0 - 0 + 1 ∧ 0 < ([1, 3] : List ℤ).length ∧
        ∀ j (hj : j < ([1, 3] : List ℤ).length), 0 ≤ j → j ≤ 0 →
          ([1, 3] : List ℤ).get ⟨j, hj⟩ ≤ 2) :=
  ⟨by decide, C1_segmenter_sound [1, 3] 2 1 0 0 (by decide)⟩

/-- Claim C4: the interval list of find_intervals contains no two adjacent or
overlapping intervals: each consecutive pair is separated by a gap, and in
that gap some index holds a value strictly above the cutoff. -/
theorem C4_segmenter_separated {α : Type} [LinearOrder α] (seq : List α) (cutoff : α)
    (min_len : ℕ) :
    List.Chain'
      (fun p q => p.2 + 1 < q.1 ∧
        ∃ j, ∃ hj : j < seq.length, p.2 < j ∧ j < q.1 ∧ cutoff < seq.get ⟨j, hj⟩)
      (find_intervals seq cutoff min_len) := by
  have h := scan_chain cutoff min_len seq seq 0 none (by simp) (by simp)
    (fun s1 h1 => nomatch h1)
  exact h.imp (fun p q hpq => ⟨by obtain ⟨j, hj, h1, h2, _⟩ := hpq; omega, hpq⟩)

/-- Claim C9: re-running find_intervals on the inclusive slice of an emitted
interval yields exactly the single interval (0, end - start). -/
theorem C9_segmenter_idempotent {α : Type} [LinearOrder α] (seq : List α) (cutoff : α)
    (min_len : ℕ) (s e : ℕ) (hmem : (s, e) ∈ find_intervals seq cutoff min_len) :
    find_intervals ((seq.drop s).take (e - s + 1)) cutoff min_len = [(0, e - s)] := by
  obtain ⟨hse, hml, helen, hvals⟩ := find_intervals_sound seq cutoff min_len s e hmem
  have hslen : ((seq.drop s).take (e - s + 1)).length = e - s + 1 := by
    simp only [List.length_take, List.length_drop]
    omega
  have hall : ∀ x ∈ (seq.drop s).take (e - s + 1), x ≤ cutoff := by
    intro x hx
    obtain ⟨k, hk⟩ := List.mem_iff_get.mp hx
    have hklt : (k : ℕ) < e - s + 1 := by
      have := k.isLt
      omega
    have hg : ((seq.drop s).take (e - s + 1)).get k = seq.get ⟨s + k, by omega⟩ := by
      rw [List.get_eq_getElem, List.get_eq_getElem, List.getElem_take, List.getElem_drop]
    rw [← hk, hg]
    exact hvals (s + k) (by omega) (by omega) (by omega)
  have hne : (seq.drop s).take (e - s + 1) ≠ [] := by
    intro hcon
    rw [hcon] at hslen
    simp at hslen
  rw [find_intervals_all_le _ cutoff min_len hne hall (by omega), hslen]
  simp

/-- Witness for C9 at the sequence [1, 1, 3, 1], cutoff 2, minimum length 1,
and its emitted interval (0, 1). -/
theorem C9_segmenter_idempotent_witness :
    ((0, 1) ∈ find_intervals ([1, 1, 3, 1] : List ℤ) 2 1) ∧
      find_intervals ((([1, 1, 3, 1] : List ℤ).drop 0).take (1 - 0 + 1)) 2 1 = [(0, 1 - 0)] :=
  ⟨by decide, C9_segmenter_idempotent [1, 1, 3, 1] 2 1 0 1 (by decide)⟩

/-! ## Ionization locator lemmas -/

/-- first_ion_time is none exactly when no electron count is strictly below
the threshold. -/
lemma first_ion_time_none_iff : ∀ (times nes : List ℚ), times.length = nes.length →
    ∀ thr : ℚ,
      (first_ion_time times nes thr = none ↔
        ∀ i (hi : i < nes.length), thr ≤ nes.get ⟨i, hi⟩)
  | [], [], _, thr => by simp [first_ion_time]
  | [], n :: ns, h, thr => by simp at h
  | t :: ts, [], h, thr => by simp at h
  | t :: ts, n :: ns, h, thr => by
      have h' : ts.length = ns.length := by simpa using h
      rw [first_ion_time]
      simp only [List.zip_cons_cons]
      by_cases hn : n < thr
      · rw [List.find?_cons_of_pos _ (by simpa using hn)]
        simp only [Option.map_some']
        constructor
        · intro hcon
          exact absurd hcon (by simp)
        · intro hall
          exact absurd (hall 0 (by simp)) (not_le.mpr hn)
      · rw [List.find?_cons_of_neg _ (by simpa using hn)]
        have ihx := first_ion_time_none_iff ts ns h' thr
        rw [first_ion_time] at ihx
        rw [ihx]
        constructor
        · intro hall i hi
          match i with
          | 0 => exact le_of_not_lt hn
          | i' + 1 => exact hall i' (by simpa using hi)
        · intro hall i hi
          exact hall (i + 1) (by simpa using hi)

/-- first_ion_time returns the time paired with the first electron count
strictly below the threshold. -/
lemma first_ion_time_some : ∀ (times nes : List ℚ) (thr : ℚ) (i : ℕ)
    (hit : i < times.length) (hin : i < nes.length),
    nes.get ⟨i, hin⟩ < thr →
    (∀ j (hj : j < nes.length), j < i → thr ≤ nes.get ⟨j, hj⟩) →
    first_ion_time times nes thr = some (times.get ⟨i, hit⟩)
  | [], _, thr, i, hit, _, _, _ => by simp at hit
  | t :: ts, [], thr, i, hit, hin, _, _ => by simp at hin
  | t :: ts, n :: ns, thr, i, hit, hin, hlt, hmin => by
      rw [first_ion_time]
      simp only [List.zip_cons_cons]
      by_cases hn : n < thr
      · rw [List.find?_cons_of_pos _ (by simpa using hn)]
        match i with
        | 0 => simp
        | i' + 1 => exact absurd (hmin 0 (by simp) (by omega)) (not_le.mpr hn)
      · rw [List.find?_cons_of_neg _ (by simpa using hn)]
        match i, hit, hin, hlt with
        | 0, _, _, hlt => exact absurd hlt hn
        | i' + 1, hit, hin, hlt =>
            have ihx := first_ion_time_some ts ns thr i' (by simpa using hit)
              (by simpa using hin) hlt
              (fun j hj hji => hmin (j + 1) (by simpa using hj) (by omega))
            rw [first_ion_time] at ihx
            exact ihx

/-- Claim C3: for equal-length (times, values) sequences the ionization
locator returns times at the smallest index whose value is strictly below
the threshold, scanning in order, and none when no sample qualifies (in
particular when the sequences are empty); for samples
[(0,10.0),(100,9.6),(200,9.4)] and threshold 9.5 it returns 200. -/
theorem C3_ionization_locator (times nes : List ℚ) (thr : ℚ)
    (h : times.length = nes.length) :
    (first_ion_time times nes thr = none ↔
      ∀ i (hi : i < nes.length), thr ≤ nes.get ⟨i, hi⟩)
    ∧ (∀ i (hit : i < times.length) (hin : i < nes.length),
        nes.get ⟨i, hin⟩ < thr →
        (∀ j (hj : j < nes.length), j < i → thr ≤ nes.get ⟨j, hj⟩) →
        first_ion_time times nes thr = some (times.get ⟨i, hit⟩))
    ∧ first_ion_time [0, 100, 200] [10, 9.6, 9.4] 9.5 = some 200 :=
  ⟨first_ion_time_none_iff times nes h thr,
   fun i hit hin => first_ion_time_some times nes thr i hit hin,
   by with_unfolding_all decide⟩

/-- Witness for C3 at the example samples. -/
theorem C3_ionization_locator_witness :
    ([(0 : ℚ), 100, 200].length = [(10 : ℚ), 9.6, 9.4].length) ∧
      first_ion_time [0, 100, 200] [10, 9.6, 9.4] 9.5 = some 200 :=
  ⟨rfl, (C3_ionization_locator [0, 100, 200] [10, 9.6, 9.4] 9.5 rfl).2.2⟩

/-- Claim C2: for the distance series [1.8, 1.9, 2.1, 1.7, 1.6] with cutoff
2.0, minimum run length 1 and per-frame step 0.5, the pair analysis reports
exactly the intervals (0,1) and (3,4), with times index * 0.5 (so [0.0, 0.5]
and [1.5, 2.0]) and durations 0.5 each. -/
theorem C2_pair_example :
    ch_pair_series ([1.8, 1.9, 2.1, 1.7, 1.6] : List ℚ) 2.0 1 0.5 =
      [(0, 1, 0, 0.5, 0.5), (3, 4, 1.5, 2, 0.5)] := by
  with_unfolding_all decide

/-! ## Signal Reader claims -/

/-- The INFOLINE example line of the spec. -/
def infolineExample : String :=
  "INFOLINE:  3.9999900000000002E+002  9.4880000371352313E+000  -5.97E+002"

/-- Counterexample to claim C6 as stated: the example marker line does not
yield the sample (399.999, 9.488); the tokens parse to
399.99900000000002 and 9.4880000371352313, and the second of these differs
from 9.488 by far more than double rounding. -/
theorem C6_counterexample :
    load_ne_sequence [infolineExample] ≠ ([mkRat 399999 1000], [mkRat 9488 1000]) := by
  set_option maxRecDepth 4000 in decide

/-- Claim C6 (amended): on every marker line the reader keeps the tokens
that parse as floats, in order; the first is the time and the second the
value, further floats are ignored; a marker line with fewer than two floats
contributes nothing; the two output lists have equal length and appending
files appends samples in file order; and the example line yields the exact
token values (399.99900000000002, 9.4880000371352313). -/
theorem C6_signal_reader :
    (∀ lines : List String,
      (load_ne_sequence lines).1.length = (load_ne_sequence lines).2.length)
    ∧ (∀ l1 l2 : List String,
        load_ne_sequence (l1 ++ l2) =
          ((load_ne_sequence l1).1 ++ (load_ne_sequence l2).1,
            (load_ne_sequence l1).2 ++ (load_ne_sequence l2).2))
    ∧ (∀ (line : String) (t v : ℚ) (rest : List ℚ),
        containsMarker line = true →
        (pySplit line).filterMap parseFloat = t :: v :: rest →
        load_ne_sequence [line] = ([t], [v]))
    ∧ (∀ line : String,
        ((pySplit line).filterMap parseFloat).length < 2 →
        load_ne_sequence [line] = ([], []))
    ∧ load_ne_sequence [infolineExample] =
        ([mkRat 39999900000000002 100000000000000], [mkRat 94880000371352313 10000000000000000]) := by
  refine ⟨?_, ?_, ?_, ?_, ?_⟩
  · intro lines
    simp [load_ne_sequence]
  · intro l1 l2
    simp [load_ne_sequence, List.filterMap_append]
  · intro line t v rest hm hf
    simp [load_ne_sequence, line_sample, hm, hf]
  · intro line hlen
    cases hsl : line_sample line with
    | none => simp [load_ne_sequence, hsl]
    | some s =>
        exfalso
        rw [line_sample] at hsl
        by_cases hm : containsMarker line
        · rw [if_pos hm] at hsl
          cases hf : (pySplit line).filterMap parseFloat with
          | nil => rw [hf] at hsl; simp at hsl
          | cons a tl =>
              cases tl with
              | nil => rw [hf] at hsl; simp at hsl
              | cons b tl2 => rw [hf] at hlen; simp at hlen; omega
        · rw [if_neg hm] at hsl
          simp at hsl
  · set_option maxRecDepth 4000 in decide

/-- Concrete signal line for the C6 witness. -/
def wSignalLine : String := "INFOLINE: 1.0 2.5 3.0"

/-- Witness for C6 on a line with three float tokens: the third is ignored. -/
theorem C6_signal_reader_witness :
    (containsMarker wSignalLine = true) ∧
      ((pySplit wSignalLine).filterMap parseFloat = [1, mkRat 5 2, 3]) ∧
      load_ne_sequence [wSignalLine] = ([1], [mkRat 5 2]) :=
  ⟨by decide, by set_option maxRecDepth 4000 in decide,
    C6_signal_reader.2.2.1 wSignalLine 1 (mkRat 5 2) [3] (by decide)
      (by set_option maxRecDepth 4000 in decide)⟩

/-! ## Frame Reader claims -/

/-- Fewer lines than the declared atom count always raises. -/
lemma readAtoms_short : ∀ (n : ℕ) (l : List String), l.length < n →
    ∃ e, readAtoms n l = .error e := by
  intro n
  induction n with
  | zero =>
    intro l h
    exact absurd h (Nat.not_lt_zero _)
  | succ n ih =>
    intro l h
    match l with
    | [] => exact ⟨"ValueError", rfl⟩
    | line :: rest =>
        cases h4 : (pySplit line).take 4 with
        | nil => exact ⟨"ValueError", by simp [readAtoms, h4]⟩
        | cons el xyz =>
            cases hf : floatsOf xyz with
            | none => exact ⟨"ValueError", by simp [readAtoms, h4, hf]⟩
            | some coords =>
                obtain ⟨e, he⟩ := ih rest (by simpa using h)
                exact ⟨e, by simp [readAtoms, h4, hf, he]⟩

/-- Counterexample to claim C7 as stated: a file that ends in the middle of
a frame (atom count 2, but a single atom line) raises ValueError instead of
being treated as end of data. -/
theorem C7_counterexample :
    frames_from_xyz ["2", "comment", "H 1.0 1.0 1.0"] = .error ("ValueError") := by
  rw [frames_from_xyz.eq_def]
  rfl

/-- Claim C7 (amended): the frame reader returns an empty frame list for a
completely empty file and for a file that ends before any atom-count line is
found, but raises when the file ends in the middle of a frame, after an
atom-count line and before all declared atom lines are present. -/
theorem C7_frame_reader :
    (frames_from_xyz [] = .ok [])
    ∧ (∀ lines : List String, (∀ l ∈ lines, pyIsDigit (pyStrip l) = false) →
        frames_from_xyz lines = .ok [])
    ∧ (∀ (cnt comment : String) (atoms : List String),
        pyIsDigit (pyStrip cnt) = true →
        atoms.length < natOfDigits (pyStrip cnt).toList →
        ∃ err, frames_from_xyz (cnt :: comment :: atoms) = .error err) := by
  refine ⟨by rw [frames_from_xyz.eq_def], ?_, ?_⟩
  · intro lines
    induction lines with
    | nil => intro _; rw [frames_from_xyz.eq_def]
    | cons l rest ih =>
        intro hall
        rw [frames_from_xyz.eq_def]
        simp only []
        rw [if_neg (by simp [hall l (List.mem_cons_self l rest)])]
        exact ih (fun x hx => hall x (List.mem_cons_of_mem _ hx))
  · intro cnt comment atoms hd hlen
    obtain ⟨e, he⟩ := readAtoms_short (natOfDigits (pyStrip cnt).toList) atoms hlen
    refine ⟨e, ?_⟩
    rw [frames_from_xyz.eq_def]
    simp only []
    rw [if_pos hd]
    simp only [List.drop_succ_cons, List.drop_zero]
    rw [he]

/-- Witness for C7 on the file with a count line of 2 and no atom lines. -/
theorem C7_frame_reader_witness :
    (pyIsDigit (pyStrip ("2")) = true) ∧
      (([] : List String).length < natOfDigits (pyStrip ("2")).toList) ∧
      ∃ err, frames_from_xyz ["2", "no atoms follow"] = .error err :=
  ⟨by decide, by decide, C7_frame_reader.2.2 ("2") ("no atoms follow") [] (by decide) (by decide)⟩

/-! ## Missing signal file claim -/

/-- Counterexample to claim C8 as stated: on a nonexistent path the signal
reader does not return two empty sequences; open() raises. -/
theorem C8_counterexample :
    load_ne_sequence_from_path none ≠ .ok ([], []) := by
  simp [load_ne_sequence_from_path]

/-- Claim C8 (amended): calling the signal reader on a nonexistent path
raises FileNotFoundError (it is the orchestrator that guards the call with
an is_file check, so a supplied-but-missing monitor file produces a report
whose ionization time is none rather than an error); on an existing file the
reader returns its sample lists. -/
theorem C8_signal_missing_file :
    (load_ne_sequence_from_path none = .error ("FileNotFoundError"))
    ∧ (∀ lines : List String,
        load_ne_sequence_from_path (some lines) = .ok (load_ne_sequence lines))
    ∧ (∀ (frames : List Frame3) (r_cut : ℝ) (min_len : ℕ) (thr : ℚ) (dt : ℝ),
        (ch_intervals_core frames (some none) r_cut min_len thr dt).t_ion = none) := by
  refine ⟨rfl, fun _ => rfl, ?_⟩
  intro frames r_cut min_len thr dt
  by_cases h0 : frames.length = 0
  · simp [ch_intervals_core, h0]
  · simp only [ch_intervals_core, if_neg h0]
    by_cases hg : cIdx frames = [] ∨ hIdx frames = []
    · simp [hg]
    · simp [hg]

/-! ## Pair Analyzer membership lemmas -/

/-- Membership in an enumerate-filter index list. -/
lemma mem_idx_filter_iff (l : List String) (t : String) (i : ℕ) :
    (i ∈ l.enum.filterMap (fun p => if upperStr p.2 = t then some p.1 else none)) ↔
      ∃ h : i < l.length, upperStr (l.get ⟨i, h⟩) = t := by
  rw [List.mem_filterMap]
  constructor
  · rintro ⟨⟨j, el⟩, hmem, hsome⟩
    by_cases hcase : upperStr el = t
    · rw [if_pos hcase] at hsome
      injection hsome with hj
      subst hj
      rw [List.mk_mem_enum_iff_getElem?] at hmem
      rw [List.getElem?_eq_some] at hmem
      obtain ⟨h, hel⟩ := hmem
      refine ⟨h, ?_⟩
      rw [List.get_eq_getElem, hel]
      exact hcase
    · rw [if_neg hcase] at hsome
      exact absurd hsome (by simp)
  · rintro ⟨h, hel⟩
    refine ⟨(i, l.get ⟨i, h⟩), ?_, ?_⟩
    · rw [List.mk_mem_enum_iff_getElem?, List.getElem?_eq_some]
      exact ⟨h, by rw [List.get_eq_getElem]⟩
    · rw [if_pos hel]

/-- Membership in the carbon index list. -/
lemma mem_cIdx_iff (frames : List Frame3) (i : ℕ) :
    i ∈ cIdx frames ↔
      ∃ h : i < (elemsOf frames).length, upperStr ((elemsOf frames).get ⟨i, h⟩) = "C" :=
  mem_idx_filter_iff (elemsOf frames) ("C") i

/-- Membership in the hydrogen index list. -/
lemma mem_hIdx_iff (frames : List Frame3) (i : ℕ) :
    i ∈ hIdx frames ↔
      ∃ h : i < (elemsOf frames).length, upperStr ((elemsOf frames).get ⟨i, h⟩) = "H" :=
  mem_idx_filter_iff (elemsOf frames) ("H") i

/-- Membership in the nested pair loop. -/
lemma pairLoop_mem_iff (frames : List Frame3) (r_cut : ℝ) (min_len : ℕ) (dt : ℝ)
    (ci hi : ℕ) (l : List (ℕ × ℕ × ℝ × ℝ × ℝ)) :
    ((ci, hi), l) ∈ pairLoop frames r_cut min_len dt ↔
      ci ∈ cIdx frames ∧ hi ∈ hIdx frames ∧
        find_intervals (distSeries frames ci hi) r_cut min_len ≠ [] ∧
        l = ch_pair_series (distSeries frames ci hi) r_cut min_len dt := by
  rw [pairLoop, List.mem_flatten]
  constructor
  · rintro ⟨L, hL, hmemL⟩
    rw [List.mem_map] at hL
    obtain ⟨ci', hci', rfl⟩ := hL
    rw [List.mem_filterMap] at hmemL
    obtain ⟨hi', hhi', hsome⟩ := hmemL
    by_cases hraw : find_intervals (distSeries frames ci' hi') r_cut min_len = []
    · rw [if_pos hraw] at hsome
      exact absurd hsome (by simp)
    · rw [if_neg hraw] at hsome
      injection hsome with h1
      injection h1 with h1a h1b
      injection h1a with ha hb
      subst ha; subst hb
      exact ⟨hci', hhi', hraw, h1b.symm⟩
  · rintro ⟨hc, hh, hraw, rfl⟩
    refine ⟨_, List.mem_map.mpr ⟨ci, hc, rfl⟩, ?_⟩
    rw [List.mem_filterMap]
    exact ⟨hi, hh, by rw [if_neg hraw]⟩

/-- The pair map of the orchestrator on a nonempty trajectory. -/
lemma core_pair_intervals (frames : List Frame3) (monitor : Option (Option (List String)))
    (r_cut : ℝ) (min_len : ℕ) (thr : ℚ) (dt : ℝ) (h0 : frames.length ≠ 0) :
    (ch_intervals_core frames monitor r_cut min_len thr dt).pair_intervals =
      if cIdx frames = [] ∨ hIdx frames = [] then []
      else pairLoop frames r_cut min_len dt := by
  simp only [ch_intervals_core, if_neg h0]
  by_cases hg : cIdx frames = [] ∨ hIdx frames = []
  · simp [hg]
  · simp [hg]

/-- Claim C5: for a non-empty trajectory, a pair (ci, hi) appears in the
output mapping exactly when frame 0 labels atom ci as carbon and atom hi as
hydrogen (case-insensitively) and its distance series yields at least one
interval; no pair is mapped to an empty interval list; and when no hydrogen
label occurs in frame 0 the mapping is empty. -/
theorem C5_pair_mapping (frames : List Frame3) (monitor : Option (Option (List String)))
    (r_cut : ℝ) (min_len : ℕ) (thr : ℚ) (dt : ℝ)
    (hne : frames ≠ [])
    (hlen : ∀ f ∈ frames, f.length = (frames.headD []).length) :
    (∀ ci hi,
      (∃ l, ((ci, hi), l) ∈ (ch_intervals_core frames monitor r_cut min_len thr dt).pair_intervals)
        ↔ ((∃ hci : ci < (elemsOf frames).length,
              upperStr ((elemsOf frames).get ⟨ci, hci⟩) = "C") ∧
           (∃ hhi : hi < (elemsOf frames).length,
              upperStr ((elemsOf frames).get ⟨hi, hhi⟩) = "H") ∧
           find_intervals (distSeries frames ci hi) r_cut min_len ≠ []))
    ∧ (∀ p l, (p, l) ∈ (ch_intervals_core frames monitor r_cut min_len thr dt).pair_intervals →
        l ≠ [])
    ∧ ((∀ i (hi2 : i < (elemsOf frames).length),
          upperStr ((elemsOf frames).get ⟨i, hi2⟩) ≠ "H") →
        (ch_intervals_core frames monitor r_cut min_len thr dt).pair_intervals = []) := by
  have hL : frames.length ≠ 0 := by
    intro hcon
    exact hne (List.length_eq_zero.mp hcon)
  have hpi := core_pair_intervals frames monitor r_cut min_len thr dt hL
  refine ⟨?_, ?_, ?_⟩
  · intro ci hi
    rw [hpi]
    by_cases hg : cIdx frames = [] ∨ hIdx frames = []
    · rw [if_pos hg]
      constructor
      · rintro ⟨l, hl⟩
        exact absurd hl (List.not_mem_nil _)
      · rintro ⟨⟨hci, hcC⟩, ⟨hhi, hhH⟩, hraw⟩
        exfalso
        have hc : ci ∈ cIdx frames := (mem_cIdx_iff frames ci).mpr ⟨hci, hcC⟩
        have hh : hi ∈ hIdx frames := (mem_hIdx_iff frames hi).mpr ⟨hhi, hhH⟩
        rcases hg with hg | hg
        · rw [hg] at hc
          exact absurd hc (List.not_mem_nil _)
        · rw [hg] at hh
          exact absurd hh (List.not_mem_nil _)
    · rw [if_neg hg]
      constructor
      · rintro ⟨l, hl⟩
        obtain ⟨hc, hh, hraw, _⟩ := (pairLoop_mem_iff frames r_cut min_len dt ci hi l).mp hl
        obtain ⟨hci, hcC⟩ := (mem_cIdx_iff frames ci).mp hc
        obtain ⟨hhi, hhH⟩ := (mem_hIdx_iff frames hi).mp hh
        exact ⟨⟨hci, hcC⟩, ⟨hhi, hhH⟩, hraw⟩
      · rintro ⟨⟨hci, hcC⟩, ⟨hhi, hhH⟩, hraw⟩
        refine ⟨ch_pair_series (distSeries frames ci hi) r_cut min_len dt, ?_⟩
        exact (pairLoop_mem_iff frames r_cut min_len dt ci hi _).mpr
          ⟨(mem_cIdx_iff frames ci).mpr ⟨hci, hcC⟩, (mem_hIdx_iff frames hi).mpr ⟨hhi, hhH⟩,
            hraw, rfl⟩
  · intro p l hl
    rw [hpi] at hl
    by_cases hg : cIdx frames = [] ∨ hIdx frames = []
    · rw [if_pos hg] at hl
      exact absurd hl (List.not_mem_nil _)
    · rw [if_neg hg] at hl
      obtain ⟨ci, hi⟩ := p
      obtain ⟨_, _, hraw, hleq⟩ := (pairLoop_mem_iff frames r_cut min_len dt ci hi l).mp hl
      rw [hleq]
      simpa [ch_pair_series] using hraw
  · intro hnoH
    rw [hpi]
    have hH : hIdx frames = [] := by
      rw [List.eq_nil_iff_forall_not_mem]
      intro i hi2
      obtain ⟨hlt, hup⟩ := (mem_hIdx_iff frames i).mp hi2
      exact hnoH i hlt hup
    rw [if_pos (Or.inr hH)]

/-- A one-frame trajectory with a coincident carbon and hydrogen, used as
the C5 witness. -/
def wFrames : List Frame3 := [[("C", (0, 0, 0)), ("H", (0, 0, 0))]]

/-- Witness for C5 on the one-frame trajectory. -/
theorem C5_pair_mapping_witness :
    (wFrames ≠ []) ∧ (∀ f ∈ wFrames, f.length = (wFrames.headD []).length) ∧
      ((∀ ci hi,
        (∃ l, ((ci, hi), l) ∈ (ch_intervals_core wFrames none 2 1 1 1).pair_intervals)
          ↔ ((∃ hci : ci < (elemsOf wFrames).length,
                upperStr ((elemsOf wFrames).get ⟨ci, hci⟩) = "C") ∧
             (∃ hhi : hi < (elemsOf wFrames).length,
                upperStr ((elemsOf wFrames).get ⟨hi, hhi⟩) = "H") ∧
             find_intervals (distSeries wFrames ci hi) 2 1 ≠ []))
      ∧ (∀ p l, (p, l) ∈ (ch_intervals_core wFrames none 2 1 1 1).pair_intervals → l ≠ [])
      ∧ ((∀ i (hi2 : i < (elemsOf wFrames).length),
            upperStr ((elemsOf wFrames).get ⟨i, hi2⟩) ≠ "H") →
          (ch_intervals_core wFrames none 2 1 1 1).pair_intervals = [])) :=
  ⟨by simp [wFrames], by intro f hf; simp [wFrames] at hf; subst hf; rfl,
    C5_pair_mapping wFrames none 2 1 1 1 (by simp [wFrames])
      (by intro f hf; simp [wFrames] at hf; subst hf; rfl)⟩

/-- Claim C10: on a trajectory with zero frames the orchestrator returns the
empty report with ionization time none, even when an existing signal file
with a sample strictly below the threshold is supplied; the early return
happens before the signal file is consulted. -/
theorem C10_empty_trajectory (mlines : List String) (r_cut : ℝ) (min_len : ℕ) (thr : ℚ)
    (dt : ℝ) (hsig : ∃ ne ∈ (load_ne_sequence mlines).2, ne < thr) :
    ch_intervals_core [] (some (some mlines)) r_cut min_len thr dt = ⟨[], none, 0⟩ := rfl

/-- Witness for C10 with a monitor file whose sample 5.0 is below the
threshold 9.5. -/
theorem C10_empty_trajectory_witness :
    (∃ ne ∈ (load_ne_sequence ["INFOLINE: 100.0 5.0"]).2, ne < mkRat 19 2) ∧
      ch_intervals_core [] (some (some ["INFOLINE: 100.0 5.0"])) 2 1 (mkRat 19 2) 1 =
        ⟨[], none, 0⟩ :=
  ⟨by decide, C10_empty_trajectory ["INFOLINE: 100.0 5.0"] 2 1 (mkRat 19 2) 1 (by decide)⟩

end CHFormation
